import Mathlib

/-!
Shallow embedding of the finite-automaton simulator
(`CS3C__Group1_FinalProjectCodeRevised.py`).

The Python class `FiniteAutomaton` stores states (a list of labels), an
alphabet (a list of symbols), a transition table (a dict from state to a
dict from symbol to a list of destination states), a start state and a set
of accept states.  Python dicts are modelled as association lists consulted
through `List.lookup`, Python sets as `Finset`s, raised exceptions as
`Except`/`Option` error values, and the `while` worklist loop of
`get_epsilon_closure` as a fuel-indexed recursion together with a proof
that the chosen fuel bound is never exhausted.
-/

namespace AutomatonSim

/-- Decidable equality for `Except` values, written by pattern matching so
that concrete comparisons reduce inside the kernel. -/
instance {ε α : Type} [DecidableEq ε] [DecidableEq α] :
    DecidableEq (Except ε α) := fun x y =>
  match x, y with
  | Except.error a, Except.error b =>
      decidable_of_iff (a = b)
        ⟨fun h => congrArg Except.error h, fun h => by injection h⟩
  | Except.ok a, Except.ok b =>
      decidable_of_iff (a = b)
        ⟨fun h => congrArg Except.ok h, fun h => by injection h⟩
  | Except.error _, Except.ok _ => isFalse (fun h => by injection h)
  | Except.ok _, Except.error _ => isFalse (fun h => by injection h)

/-- The reserved epsilon symbol `'ε'` hard-coded by the Python source. -/
def epsSym : Char := 'ε'

/-- The five fields stored by `FiniteAutomaton.__init__` (lines 16-21).
States are Python strings; input symbols are the single characters of the
input string, so symbols are modelled as `Char` (with `'ε'` reserved). -/
structure FiniteAutomaton where
  states : List String
  alphabet : List Char
  transitions : List (String × List (Char × List String))
  start_state : String
  accept_states : Finset String
deriving DecidableEq

/-- Key access `self.transitions[state]` / `state in self.transitions`:
`some table` exactly when the dict has the key. -/
def lookupTable (fa : FiniteAutomaton) (state : String) :
    Option (List (Char × List String)) :=
  fa.transitions.lookup state

/-- The early-return test of the `check_if_dfa` scan (lines 75-82): the
state has an ε entry, or some entry of the state has more than one
destination. -/
def scanBad (fa : FiniteAutomaton) (state : String) : Bool :=
  match lookupTable fa state with
  | some table =>
      (table.lookup epsSym).isSome || table.any (fun e => 1 < e.2.length)
  | none => false

/-- One conjunct of the final `all` of `check_if_dfa` (lines 84-88): the
state is an accept state, or it has a transition entry for every alphabet
symbol. -/
def complete (fa : FiniteAutomaton) (state : String) : Bool :=
  decide (state ∈ fa.accept_states) ||
    (match lookupTable fa state with
     | some table =>
         fa.alphabet.all (fun symbol => (table.lookup symbol).isSome)
     | none => false)

/-- `check_if_dfa` (lines 72-88): scan every state for an ε entry or a
multi-destination entry (early `return False`), then require every
non-accepting state to have an entry for every alphabet symbol. -/
def check_if_dfa (fa : FiniteAutomaton) : Bool :=
  if fa.states.any (scanBad fa) then false
  else fa.states.all (complete fa)

/-- The two shapes of entry collected into `missing_transitions` by
`validate_transitions`: a missing `(state, symbol)` entry, and an entry
whose destination count differs from one (message
"multiple transitions not allowed in DFA"). -/
inductive Violation where
  | missing : String → Char → Violation
  | multiple : String → Char → Violation
deriving DecidableEq

/-- The violations `validate_transitions` (lines 42-70) collects for one
state: if the state has no transition entry at all, every alphabet symbol
is reported missing; otherwise each alphabet symbol is checked for
presence and for having exactly one destination. -/
def stateViolations (fa : FiniteAutomaton) (state : String) : List Violation :=
  match lookupTable fa state with
  | none => fa.alphabet.map (fun symbol => Violation.missing state symbol)
  | some table =>
      fa.alphabet.filterMap (fun symbol =>
        match table.lookup symbol with
        | none => some (Violation.missing state symbol)
        | some dests =>
            if dests.length ≠ 1 then some (Violation.multiple state symbol)
            else none)

/-- `validate_transitions` (lines 42-70): accept states are skipped; all
violations of the remaining states are accumulated in order.  The Python
method raises `TransitionError` exactly when this list is non-empty. -/
def validate_transitions (fa : FiniteAutomaton) : List Violation :=
  (fa.states.filter (fun state => decide (state ∉ fa.accept_states))).flatMap
    (stateViolations fa)

/-- `FiniteAutomaton.__init__` (lines 16-27): store the five fields, compute
`is_dfa = check_if_dfa()`, and run `validate_transitions` only when
`is_dfa` is true; the constructor raises `TransitionError` (modelled as
`Except.error` carrying the violation list) exactly when that validation
collected at least one violation. -/
def initFA (states : List String) (alphabet : List Char)
    (transitions : List (String × List (Char × List String)))
    (start_state : String) (accept_states : Finset String) :
    Except (List Violation) FiniteAutomaton :=
  if check_if_dfa ⟨states, alphabet, transitions, start_state, accept_states⟩ then
    match validate_transitions
        ⟨states, alphabet, transitions, start_state, accept_states⟩ with
    | [] => Except.ok ⟨states, alphabet, transitions, start_state, accept_states⟩
    | v :: vs => Except.error (v :: vs)
  else Except.ok ⟨states, alphabet, transitions, start_state, accept_states⟩

/-- The three labels shown by the GUI (lines 310-316). -/
inductive Kind where
  | DFA : Kind
  | NFA : Kind
  | EPSILON_NFA : Kind
deriving DecidableEq

/-- `'ε' in transitions.get(state, {})` for one state (line 313). -/
def hasEpsAt (fa : FiniteAutomaton) (state : String) : Bool :=
  match lookupTable fa state with
  | some table => (table.lookup epsSym).isSome
  | none => false

/-- `any('ε' in transitions.get(state, {}) for state in states)`
(line 313). -/
def has_epsilon (fa : FiniteAutomaton) : Bool :=
  fa.states.any (hasEpsAt fa)

/-- The automaton-type classification of `simulate_automaton`
(lines 310-316): DFA when `is_dfa`, otherwise ε-NFA when any ε entry
exists, otherwise NFA. -/
def kind (fa : FiniteAutomaton) : Kind :=
  if check_if_dfa fa then Kind.DFA
  else if has_epsilon fa then Kind.EPSILON_NFA
  else Kind.NFA

/-- The data carried by the `InputError` message (lines 36-40): the set of
offending symbols and the allowed alphabet. -/
structure InputErr where
  invalid_symbols : Finset Char
  allowed : List Char
deriving DecidableEq

/-- The set `invalid_symbols` built by `validate_input_string`
(lines 31-34): every input symbol not in the alphabet. -/
def invalidSymbols (fa : FiniteAutomaton) (input : List Char) : Finset Char :=
  (input.filter (fun symbol => decide (symbol ∉ fa.alphabet))).toFinset

/-- `validate_input_string` (lines 29-40): raises `InputError` (modelled as
`some` error value) exactly when some input symbol is outside the
alphabet. -/
def validate_input_string (fa : FiniteAutomaton) (input : List Char) :
    Option InputErr :=
  if invalidSymbols fa input = ∅ then none
  else some { invalid_symbols := invalidSymbols fa input, allowed := fa.alphabet }

/-- The ε successors of one state,
`self.transitions[state]['ε']` guarded by the two key tests (line 97). -/
def epsDests (fa : FiniteAutomaton) (state : String) : List String :=
  match lookupTable fa state with
  | some table => (table.lookup epsSym).getD []
  | none => []

/-- All states that can ever be pushed by the worklist of
`get_epsilon_closure`: the ε destinations of every row of the table.
Used only to bound the fuel of the loop. -/
def allEpsDests (fa : FiniteAutomaton) : Finset String :=
  (fa.transitions.flatMap (fun p => (p.2.lookup epsSym).getD [])).toFinset

/-- Enumerate a Python set (`list(states)` on line 93 iterates a set in
unspecified order; the worklist's result is order independent, so any
fixed enumeration is a faithful model).  Insertion sort is used because it
is structurally recursive, so concrete runs reduce inside the kernel. -/
def setToList (s : Finset String) : List String :=
  Quot.liftOn s.val (List.insertionSort (fun a b => a ≤ b))
    (fun l₁ l₂ h =>
      List.eq_of_perm_of_sorted
        ((List.perm_insertionSort _ l₁).trans
          (h.trans (List.perm_insertionSort _ l₂).symm))
        (List.sorted_insertionSort _ l₁) (List.sorted_insertionSort _ l₂))

/-- The inner `for next_state in self.transitions[state]['ε']` loop of
`get_epsilon_closure` (lines 98-101): each destination not yet in the
closure is added to the closure and pushed on the stack (the list head is
the top of the stack, matching `stack.pop()` / `stack.append`). -/
def pushFresh (closure : Finset String) (stack : List String) :
    List String → Finset String × List String
  | [] => (closure, stack)
  | d :: ds =>
      if d ∈ closure then pushFresh closure stack ds
      else pushFresh (insert d closure) (d :: stack) ds

/-- The `while stack:` loop of `get_epsilon_closure` (lines 95-101),
fuel-indexed: pop a state, push its fresh ε destinations, repeat.  `none`
means the fuel ran out, which `closureLoopFuel_isSome` shows never happens
for the fuel chosen in `get_epsilon_closure`. -/
def closureLoopFuel (fa : FiniteAutomaton) :
    Nat → Finset String → List String → Option (Finset String)
  | 0, _, _ => none
  | _ + 1, closure, [] => some closure
  | fuel + 1, closure, state :: rest =>
      closureLoopFuel fa fuel (pushFresh closure rest (epsDests fa state)).1
        (pushFresh closure rest (epsDests fa state)).2

/-- Fuel bound for the worklist: each iteration either pops one pending
state or moves a state of `allEpsDests` into the closure, so this quantity
strictly decreases. -/
def closureFuel (fa : FiniteAutomaton) (closure : Finset String)
    (stack : List String) : Nat :=
  2 * ((allEpsDests fa) \ closure).card + stack.length + 1

/-- `get_epsilon_closure` (lines 90-103): `closure = set(states)`,
`stack = list(states)`, then the worklist loop. -/
def get_epsilon_closure (fa : FiniteAutomaton) (start : Finset String) :
    Finset String :=
  (closureLoopFuel fa (closureFuel fa start (setToList start)) start
    (setToList start)).getD start

/-- One step of `simulate`'s symbol loop (lines 112-115): the union over
the current states of `transitions[state][symbol]`, guarded by the two key
tests. -/
def stepSymbol (fa : FiniteAutomaton) (current : Finset String)
    (symbol : Char) : Finset String :=
  current.biUnion (fun state =>
    match lookupTable fa state with
    | some table =>
        match table.lookup symbol with
        | some dests => dests.toFinset
        | none => ∅
    | none => ∅)

/-- The `for symbol in input_string` loop of `simulate` (lines 111-124):
take the ε-closure of the symbol step, return `False` as soon as it is
empty, and after the last symbol test `bool(current_states &
self.accept_states)`. -/
def simLoop (fa : FiniteAutomaton) : Finset String → List Char → Bool
  | current, [] => decide ((current ∩ fa.accept_states).Nonempty)
  | current, symbol :: rest =>
      if get_epsilon_closure fa (stepSymbol fa current symbol) = ∅ then false
      else simLoop fa (get_epsilon_closure fa (stepSymbol fa current symbol)) rest

/-- `simulate` (lines 105-124): validate the input string first (raising
`InputError`), then run the subset simulation from the ε-closure of the
start state.  The definition never consults `is_dfa`. -/
def simulate (fa : FiniteAutomaton) (input : List Char) :
    Except InputErr Bool :=
  match validate_input_string fa input with
  | some e => Except.error e
  | none =>
      Except.ok (simLoop fa (get_epsilon_closure fa {fa.start_state}) input)

/-- The distinct errors of the GUI method `validate_basic_inputs`
(lines 206-234), in source order. -/
inductive BasicInputError where
  | emptyStates : BasicInputError
  | emptyAlphabet : BasicInputError
  | emptyStartState : BasicInputError
  | startNotInStates : String → BasicInputError
  | emptyAcceptStates : BasicInputError
  | invalidAcceptStates : Finset String → BasicInputError
deriving DecidableEq

/-- The GUI method `FiniteAutomatonGUI.validate_basic_inputs`
(lines 206-234), modelled on the already-split values (the comma
splitting and whitespace stripping of the raw entry text is presentation
input handling): non-empty states, non-empty alphabet, non-empty start
state belonging to the states, non-empty accept states all belonging to
the states.  It runs before `FiniteAutomaton` is constructed. -/
def validate_basic_inputs (states : List String) (alphabet : List Char)
    (start_state : String) (accept_states : Finset String) :
    Except BasicInputError Unit :=
  if states = [] then Except.error BasicInputError.emptyStates
  else if alphabet = [] then Except.error BasicInputError.emptyAlphabet
  else if start_state = "" then Except.error BasicInputError.emptyStartState
  else if start_state ∉ states then
    Except.error (BasicInputError.startNotInStates start_state)
  else if accept_states = ∅ then
    Except.error BasicInputError.emptyAcceptStates
  else if accept_states \ states.toFinset ≠ ∅ then
    Except.error
      (BasicInputError.invalidAcceptStates (accept_states \ states.toFinset))
  else Except.ok ()

/-- A set of states closed under following ε transitions. -/
def EpsClosed (fa : FiniteAutomaton) (C : Finset String) : Prop :=
  ∀ s ∈ C, ∀ d ∈ epsDests fa s, d ∈ C

/-- Transcribed from the spec: one round of "follow ε-transitions from any
state already in the closure, adding newly reached states". -/
def epsStepSpec (fa : FiniteAutomaton) (X : Finset String) : Finset String :=
  X ∪ X.biUnion (fun state => (epsDests fa state).toFinset)

/-- Transcribed from the spec: the ε-closure as the fixpoint of
`epsStepSpec` ("until no new state is added").  The closure only ever grows
inside `X ∪ allEpsDests fa`, so iterating one more time than that set has
elements is guaranteed to have reached the fixpoint. -/
def epsilonClosureSpec (fa : FiniteAutomaton) (X : Finset String) :
    Finset String :=
  (epsStepSpec fa)^[(X ∪ allEpsDests fa).card + 1] X

/-- Transcribed from the spec: "the union of destinations reachable from
any current state via that exact symbol (not ε) across all states in the
current set". -/
def moveSpec (fa : FiniteAutomaton) (current : Finset String)
    (symbol : Char) : Finset String :=
  current.biUnion (fun state =>
    (((lookupTable fa state).bind (fun table => table.lookup symbol)).getD
      []).toFinset)

/-- Transcribed from the spec: per symbol take the ε-closure of the move,
reject immediately when it is empty, and at the end accept exactly when
the current set intersects the accept states non-emptily. -/
def simLoopSpec (fa : FiniteAutomaton) : Finset String → List Char → Bool
  | current, [] => decide ((current ∩ fa.accept_states).Nonempty)
  | current, symbol :: rest =>
      if epsilonClosureSpec fa (moveSpec fa current symbol) = ∅ then false
      else simLoopSpec fa (epsilonClosureSpec fa (moveSpec fa current symbol)) rest

/-- Transcribed from the spec: the whole simulation algorithm, starting
from the ε-closure of the start state. -/
def simulateSpec (fa : FiniteAutomaton) (input : List Char) : Bool :=
  simLoopSpec fa (epsilonClosureSpec fa {fa.start_state}) input

/-- The destination list recorded for a `(state, symbol)` pair, with `[]`
for an absent key on either level. -/
def destsOf (fa : FiniteAutomaton) (state : String) (symbol : Char) :
    List String :=
  ((lookupTable fa state).bind (fun table => table.lookup symbol)).getD []

/-- The source state named by a violation message. -/
def violState : Violation → String
  | Violation.missing st _ => st
  | Violation.multiple st _ => st

/-- The alphabet symbol named by a violation message. -/
def violSym : Violation → Char
  | Violation.missing _ a => a
  | Violation.multiple _ a => a

/-- The spec's concrete DFA scenario: states {q0, q1}, alphabet {0, 1},
transitions q0,0→q1; q0,1→q0; q1,0→q0; q1,1→q1, start q0, accept {q1}. -/
def exampleDFA : FiniteAutomaton :=
  { states := ["q0", "q1"], alphabet := ['0', '1'],
    transitions :=
      [("q0", [('0', ["q1"]), ('1', ["q0"])]),
       ("q1", [('0', ["q0"]), ('1', ["q1"])])],
    start_state := "q0", accept_states := {"q1"} }

/-- The spec's concrete ε-NFA scenario: states {q0, q1, q2}, alphabet {a},
transitions q0,ε→q1; q1,a→q2, start q0, accept {q2}. -/
def exampleEpsNFA : FiniteAutomaton :=
  { states := ["q0", "q1", "q2"], alphabet := ['a'],
    transitions := [("q0", [(epsSym, ["q1"])]), ("q1", [('a', ["q2"])])],
    start_state := "q0", accept_states := {"q2"} }

/-- The spec's concrete incomplete-DFA scenario: states {q0, q1}, alphabet
{0, 1}, the single transition q0,0→q1, start q0, accept {q1}. -/
def exampleIncomplete : FiniteAutomaton :=
  { states := ["q0", "q1"], alphabet := ['0', '1'],
    transitions := [("q0", [('0', ["q1"])])],
    start_state := "q0", accept_states := {"q1"} }

/-- An automaton whose only multi-destination entry sits on an accept
state, while every non-accepting state has exactly one transition per
alphabet symbol and there are no ε entries. -/
def exampleMultiAccept : FiniteAutomaton :=
  { states := ["q0", "q1"], alphabet := ['a'],
    transitions := [("q0", [('a', ["q1"])]), ("q1", [('a', ["q0", "q1"])])],
    start_state := "q0", accept_states := {"q1"} }

/-- An automaton whose start state `x` is not a member of `states` and
which otherwise satisfies every structural check. -/
def exampleBadStart : FiniteAutomaton :=
  { states := ["q0"], alphabet := ['a'],
    transitions := [("q0", [('a', ["q0"])])],
    start_state := "x", accept_states := {"q0"} }

/-- An automaton classified as a DFA whose non-accepting state `q0` has an
entry with an empty destination list: the one shape on which
`validate_transitions` actually reports a violation. -/
def exampleEmptyDest : FiniteAutomaton :=
  { states := ["q0", "q1"], alphabet := ['0'],
    transitions := [("q0", [('0', ([] : List String))])],
    start_state := "q0", accept_states := {"q1"} }

/-- A successful dict lookup returns a pair of the association list. -/
theorem lookup_mem {α β : Type} [BEq α] [LawfulBEq α] {l : List (α × β)}
    {a : α} {b : β} (h : List.lookup a l = some b) : (a, b) ∈ l := by
  induction l with
  | nil => simp [List.lookup] at h
  | cons p rest ih =>
    obtain ⟨k, v⟩ := p
    rw [List.lookup] at h
    cases hk : (a == k) with
    | true =>
      rw [hk] at h
      obtain rfl : v = b := Option.some.inj h
      obtain rfl : a = k := eq_of_beq hk
      exact List.mem_cons_self _ _
    | false =>
      rw [hk] at h
      exact List.mem_cons_of_mem _ (ih h)

/-- A dict lookup on a key that no entry carries returns nothing. -/
theorem lookup_eq_none_of_not_mem {α β : Type} [BEq α] [LawfulBEq α]
    {l : List (α × β)} {a : α} (h : ∀ e ∈ l, e.1 ≠ a) :
    List.lookup a l = none := by
  induction l with
  | nil => rfl
  | cons p rest ih =>
    obtain ⟨k, v⟩ := p
    rw [List.lookup]
    cases hk : (a == k) with
    | true =>
      exact absurd (eq_of_beq hk).symm (h (k, v) (List.mem_cons_self _ _))
    | false =>
      exact ih (fun e he => h e (List.mem_cons_of_mem _ he))

/-- Every ε destination of every state lies in `allEpsDests`. -/
theorem epsDests_subset_allEpsDests (fa : FiniteAutomaton) {st d : String}
    (h : d ∈ epsDests fa st) : d ∈ allEpsDests fa := by
  unfold epsDests at h
  cases hl : lookupTable fa st with
  | none => rw [hl] at h; simp at h
  | some table =>
    rw [hl] at h
    have hmem : (st, table) ∈ fa.transitions := lookup_mem hl
    unfold allEpsDests
    rw [List.mem_toFinset, List.mem_flatMap]
    exact ⟨(st, table), hmem, h⟩

/-- `pushFresh` only ever grows the closure. -/
theorem pushFresh_closure_subset (ds : List String) :
    ∀ closure stack, closure ⊆ (pushFresh closure stack ds).1 := by
  induction ds with
  | nil => intro c s; exact Finset.Subset.refl _
  | cons d ds ih =>
    intro c s
    by_cases hd : d ∈ c
    · rw [pushFresh, if_pos hd]; exact ih c s
    · rw [pushFresh, if_neg hd]
      exact (Finset.subset_insert d c).trans (ih _ _)

/-- `pushFresh` keeps every state already on the stack. -/
theorem pushFresh_stack_mem (ds : List String) :
    ∀ closure stack, ∀ x ∈ stack, x ∈ (pushFresh closure stack ds).2 := by
  induction ds with
  | nil => intro c s x hx; exact hx
  | cons d ds ih =>
    intro c s x hx
    by_cases hd : d ∈ c
    · rw [pushFresh, if_pos hd]; exact ih c s x hx
    · rw [pushFresh, if_neg hd]
      exact ih _ _ x (List.mem_cons_of_mem d hx)

/-- After `pushFresh`, every processed destination is in the closure. -/
theorem pushFresh_dests_mem (ds : List String) :
    ∀ closure stack, ∀ d ∈ ds, d ∈ (pushFresh closure stack ds).1 := by
  induction ds with
  | nil => intro c s d hd; simp at hd
  | cons d ds ih =>
    intro c s x hx
    rcases List.mem_cons.mp hx with rfl | hx
    · by_cases hd : x ∈ c
      · rw [pushFresh, if_pos hd]
        exact pushFresh_closure_subset ds c s hd
      · rw [pushFresh, if_neg hd]
        exact pushFresh_closure_subset ds _ _ (Finset.mem_insert_self x c)
    · by_cases hd : d ∈ c
      · rw [pushFresh, if_pos hd]; exact ih c s x hx
      · rw [pushFresh, if_neg hd]; exact ih _ _ x hx

/-- States on the stack after `pushFresh` were on the stack before or are
among the processed destinations. -/
theorem pushFresh_stack_cases (ds : List String) :
    ∀ closure stack, ∀ x ∈ (pushFresh closure stack ds).2,
      x ∈ stack ∨ x ∈ ds := by
  induction ds with
  | nil => intro c s x hx; exact Or.inl hx
  | cons d ds ih =>
    intro c s x hx
    by_cases hd : d ∈ c
    · rw [pushFresh, if_pos hd] at hx
      rcases ih c s x hx with h | h
      · exact Or.inl h
      · exact Or.inr (List.mem_cons_of_mem d h)
    · rw [pushFresh, if_neg hd] at hx
      rcases ih _ _ x hx with h | h
      · rcases List.mem_cons.mp h with rfl | h
        · exact Or.inr (List.mem_cons_self _ _)
        · exact Or.inl h
      · exact Or.inr (List.mem_cons_of_mem d h)

/-- States in the closure after `pushFresh` were in the closure before or
are on the stack afterwards (each fresh state is pushed when added). -/
theorem pushFresh_closure_cases (ds : List String) :
    ∀ closure stack, ∀ x ∈ (pushFresh closure stack ds).1,
      x ∈ closure ∨ x ∈ (pushFresh closure stack ds).2 := by
  induction ds with
  | nil => intro c s x hx; exact Or.inl hx
  | cons d ds ih =>
    intro c s x hx
    by_cases hd : d ∈ c
    · rw [pushFresh, if_pos hd] at hx ⊢; exact ih c s x hx
    · rw [pushFresh, if_neg hd] at hx ⊢
      rcases ih _ _ x hx with h | h
      · rcases Finset.mem_insert.mp h with rfl | h
        · exact Or.inr (pushFresh_stack_mem ds _ _ x (List.mem_cons_self _ _))
        · exact Or.inl h
      · exact Or.inr h

/-- If the incoming stack sits inside the closure, so does the outgoing
stack. -/
theorem pushFresh_stack_closure (ds : List String) :
    ∀ closure stack, (∀ x ∈ stack, x ∈ closure) →
      ∀ x ∈ (pushFresh closure stack ds).2, x ∈ (pushFresh closure stack ds).1 := by
  induction ds with
  | nil => intro c s h x hx; exact h x hx
  | cons d ds ih =>
    intro c s h x hx
    by_cases hd : d ∈ c
    · rw [pushFresh, if_pos hd] at hx ⊢; exact ih c s h x hx
    · rw [pushFresh, if_neg hd] at hx ⊢
      refine ih _ _ ?_ x hx
      intro y hy
      rcases List.mem_cons.mp hy with rfl | hy
      · exact Finset.mem_insert_self y c
      · exact Finset.mem_insert_of_mem (h y hy)

/-- The closure after `pushFresh` is bounded by the old closure and the
processed destinations. -/
theorem pushFresh_closure_sub (ds : List String) :
    ∀ closure stack,
      (pushFresh closure stack ds).1 ⊆ closure ∪ ds.toFinset := by
  induction ds with
  | nil =>
    intro c s
    exact Finset.subset_union_left
  | cons d ds ih =>
    intro c s
    have hstep : c ∪ insert d ds.toFinset = insert d c ∪ ds.toFinset := by
      ext x; simp [Finset.mem_union, Finset.mem_insert, or_assoc, or_left_comm]
    by_cases hd : d ∈ c
    · rw [pushFresh, if_pos hd, List.toFinset_cons]
      exact (ih c s).trans (by rw [hstep]; exact
        Finset.union_subset_union (Finset.subset_insert d c) (Finset.Subset.refl _))
    · rw [pushFresh, if_neg hd, List.toFinset_cons, hstep]
      exact ih _ _

/-- The termination measure of the worklist never grows across
`pushFresh`: each skipped destination is free, and each pushed destination
trades one unit of stack length for one state removed from
`U \ closure`. -/
theorem pushFresh_measure (U : Finset String) (ds : List String) :
    ∀ closure stack, (∀ d ∈ ds, d ∈ U) →
      2 * (U \ (pushFresh closure stack ds).1).card +
          (pushFresh closure stack ds).2.length ≤
        2 * (U \ closure).card + stack.length := by
  induction ds with
  | nil => intro c s _; exact Nat.le_refl _
  | cons d ds ih =>
    intro c s hU
    have hdU : d ∈ U := hU d (List.mem_cons_self _ _)
    have htail : ∀ x ∈ ds, x ∈ U := fun x hx => hU x (List.mem_cons_of_mem d hx)
    by_cases hd : d ∈ c
    · rw [pushFresh, if_pos hd]; exact ih c s htail
    · rw [pushFresh, if_neg hd]
      refine (ih _ _ htail).trans ?_
      have hmem : d ∈ U \ c := Finset.mem_sdiff.mpr ⟨hdU, hd⟩
      have hcard : (U \ insert d c).card = (U \ c).card - 1 := by
        rw [Finset.sdiff_insert, Finset.card_erase_of_mem hmem]
      have hpos : 1 ≤ (U \ c).card := Finset.card_pos.mpr ⟨d, hmem⟩
      rw [hcard]
      simp only [List.length_cons]
      omega

/-- With fuel exceeding the termination measure, the worklist halts. -/
theorem closureLoopFuel_isSome (fa : FiniteAutomaton) :
    ∀ fuel closure stack,
      2 * ((allEpsDests fa) \ closure).card + stack.length < fuel →
      ∃ r, closureLoopFuel fa fuel closure stack = some r := by
  intro fuel
  induction fuel with
  | zero => intro c s h; omega
  | succ fuel ih =>
    intro c s h
    cases s with
    | nil => exact ⟨c, rfl⟩
    | cons state rest =>
      rw [closureLoopFuel]
      apply ih
      have hp := pushFresh_measure (allEpsDests fa) (epsDests fa state) c rest
        (fun d hd => epsDests_subset_allEpsDests fa hd)
      simp only [List.length_cons] at h
      omega

/-- The worklist result contains the initial closure, is ε-closed and is
contained in every ε-closed superset, provided the two loop invariants
hold: the stack sits inside the closure, and every closure state is either
still pending on the stack or has its ε successors already in the
closure. -/
theorem closureLoopFuel_correct (fa : FiniteAutomaton) :
    ∀ fuel closure stack r,
      closureLoopFuel fa fuel closure stack = some r →
      (∀ x ∈ stack, x ∈ closure) →
      (∀ s ∈ closure, s ∈ stack ∨ ∀ d ∈ epsDests fa s, d ∈ closure) →
      closure ⊆ r ∧ EpsClosed fa r ∧
        ∀ C, closure ⊆ C → EpsClosed fa C → r ⊆ C := by
  intro fuel
  induction fuel with
  | zero => intro c s r h _ _; simp [closureLoopFuel] at h
  | succ fuel ih =>
    intro c s r h hstack hinv
    cases s with
    | nil =>
      rw [closureLoopFuel] at h
      obtain rfl : c = r := Option.some.inj h
      refine ⟨Finset.Subset.refl _, ?_, fun C hsub _ => hsub⟩
      intro s hs d hd
      rcases hinv s hs with h' | h'
      · simp at h'
      · exact h' d hd
    | cons state rest =>
      rw [closureLoopFuel] at h
      have hstate_c : state ∈ c := hstack state (List.mem_cons_self _ _)
      have hrest_c : ∀ x ∈ rest, x ∈ c :=
        fun x hx => hstack x (List.mem_cons_of_mem _ hx)
      have hstack' := pushFresh_stack_closure (epsDests fa state) c rest hrest_c
      have hinv' : ∀ t ∈ (pushFresh c rest (epsDests fa state)).1,
          t ∈ (pushFresh c rest (epsDests fa state)).2 ∨
            ∀ d ∈ epsDests fa t, d ∈ (pushFresh c rest (epsDests fa state)).1 := by
        intro t ht
        rcases pushFresh_closure_cases (epsDests fa state) c rest t ht with htc | hts
        · rcases hinv t htc with hmem | hclosed
          · rcases List.mem_cons.mp hmem with rfl | hmem
            · exact Or.inr (fun d hd => pushFresh_dests_mem _ c rest d hd)
            · exact Or.inl (pushFresh_stack_mem _ c rest t hmem)
          · exact Or.inr (fun d hd =>
              pushFresh_closure_subset _ c rest (hclosed d hd))
        · exact Or.inl hts
      obtain ⟨hsub, hclosed, hmin⟩ := ih _ _ r h hstack' hinv'
      refine ⟨(pushFresh_closure_subset _ c rest).trans hsub, hclosed, ?_⟩
      intro C hC hCclosed
      refine hmin C ((pushFresh_closure_sub _ c rest).trans ?_) hCclosed
      intro x hx
      rcases Finset.mem_union.mp hx with hx | hx
      · exact hC hx
      · exact hCclosed state (hC hstate_c) x (List.mem_toFinset.mp hx)

/-- `setToList` enumerates exactly the members of the set. -/
theorem mem_setToList {s : Finset String} {x : String} :
    x ∈ setToList s ↔ x ∈ s := by
  rcases s with ⟨val, nodup⟩
  revert nodup
  induction val using Quotient.inductionOn with
  | h l =>
    intro nodup
    show x ∈ List.insertionSort (fun a b => a ≤ b) l ↔ _
    rw [(List.perm_insertionSort _ l).mem_iff]
    simp [Finset.mem_mk]

/-- The three defining properties of the worklist ε-closure: it contains
its input, it is ε-closed, and it is least among the ε-closed supersets of
its input. -/
theorem get_epsilon_closure_spec (fa : FiniteAutomaton) (X : Finset String) :
    X ⊆ get_epsilon_closure fa X ∧ EpsClosed fa (get_epsilon_closure fa X) ∧
      ∀ C, X ⊆ C → EpsClosed fa C → get_epsilon_closure fa X ⊆ C := by
  obtain ⟨r, hr⟩ := closureLoopFuel_isSome fa (closureFuel fa X (setToList X))
    X (setToList X) (by unfold closureFuel; omega)
  have hspec := closureLoopFuel_correct fa _ X (setToList X) r hr
    (fun x hx => mem_setToList.mp hx)
    (fun t ht => Or.inl (mem_setToList.mpr ht))
  unfold get_epsilon_closure
  rw [hr]
  simpa using hspec

/-- ε-closure is idempotent: the closure of a closure is itself, because a
closed set is its own least closed superset. -/
theorem gec_idem (fa : FiniteAutomaton) (X : Finset String) :
    get_epsilon_closure fa (get_epsilon_closure fa X) =
      get_epsilon_closure fa X := by
  obtain ⟨h1, h2, _⟩ := get_epsilon_closure_spec fa X
  obtain ⟨g1, _, g3⟩ := get_epsilon_closure_spec fa (get_epsilon_closure fa X)
  exact Finset.Subset.antisymm (g3 _ (Finset.Subset.refl _) h2) g1

/-- One spec round only adds states. -/
theorem subset_epsStepSpec (fa : FiniteAutomaton) (X : Finset String) :
    X ⊆ epsStepSpec fa X :=
  Finset.subset_union_left

/-- A spec round stays inside any ε-closed superset. -/
theorem epsStepSpec_subset (fa : FiniteAutomaton) {X C : Finset String}
    (hXC : X ⊆ C) (hC : EpsClosed fa C) : epsStepSpec fa X ⊆ C := by
  unfold epsStepSpec
  refine Finset.union_subset hXC ?_
  intro d hd
  obtain ⟨s, hs, hd⟩ := Finset.mem_biUnion.mp hd
  exact hC s (hXC hs) d (List.mem_toFinset.mp hd)

/-- Iterating the spec round can only grow the set. -/
theorem iterate_mono_step (fa : FiniteAutomaton) (X : Finset String) (n : Nat) :
    (epsStepSpec fa)^[n] X ⊆ (epsStepSpec fa)^[n + 1] X := by
  rw [Function.iterate_succ_apply']
  exact subset_epsStepSpec fa _

/-- The iterated spec round contains the initial set. -/
theorem subset_iterate (fa : FiniteAutomaton) (X : Finset String) :
    ∀ n, X ⊆ (epsStepSpec fa)^[n] X := by
  intro n
  induction n with
  | zero => simp
  | succ n ih => exact ih.trans (iterate_mono_step fa X n)

/-- The iterated spec round stays inside any ε-closed superset. -/
theorem iterate_subset_of_closed (fa : FiniteAutomaton) {X C : Finset String}
    (hXC : X ⊆ C) (hC : EpsClosed fa C) :
    ∀ n, (epsStepSpec fa)^[n] X ⊆ C := by
  intro n
  induction n with
  | zero => simpa using hXC
  | succ n ih =>
    rw [Function.iterate_succ_apply']
    exact epsStepSpec_subset fa ih hC

/-- The iterated spec round never leaves `X ∪ allEpsDests`. -/
theorem iterate_subset_union (fa : FiniteAutomaton) (X : Finset String) :
    ∀ n, (epsStepSpec fa)^[n] X ⊆ X ∪ allEpsDests fa := by
  intro n
  induction n with
  | zero => simp
  | succ n ih =>
    rw [Function.iterate_succ_apply']
    refine Finset.union_subset ih ?_
    intro d hd
    obtain ⟨s, _, hd⟩ := Finset.mem_biUnion.mp hd
    exact Finset.mem_union_right _
      (epsDests_subset_allEpsDests fa (List.mem_toFinset.mp hd))

/-- Once one spec round adds nothing, all later rounds add nothing. -/
theorem iterate_stab (fa : FiniteAutomaton) (X : Finset String) {k : Nat}
    (h : (epsStepSpec fa)^[k + 1] X = (epsStepSpec fa)^[k] X) :
    ∀ m, k ≤ m → (epsStepSpec fa)^[m] X = (epsStepSpec fa)^[k] X := by
  intro m hm
  induction m with
  | zero =>
    obtain rfl : k = 0 := Nat.le_zero.mp hm
    rfl
  | succ m ih =>
    rcases Nat.lt_or_ge k (m + 1) with hlt | hge
    · have hkm := ih (Nat.lt_succ_iff.mp hlt)
      rw [Function.iterate_succ_apply', hkm,
        ← Function.iterate_succ_apply' (epsStepSpec fa) k X, h]
    · obtain rfl : k = m + 1 := Nat.le_antisymm hm hge
      rfl

/-- While no round has stabilised, the iterates grow by at least one state
per round. -/
theorem iterate_card_growth (fa : FiniteAutomaton) (X : Finset String) :
    ∀ n, (∀ k < n, (epsStepSpec fa)^[k + 1] X ≠ (epsStepSpec fa)^[k] X) →
      X.card + n ≤ ((epsStepSpec fa)^[n] X).card := by
  intro n
  induction n with
  | zero => intro _; simp
  | succ n ih =>
    intro h
    have hn := ih (fun k hk => h k (Nat.lt_succ_of_lt hk))
    have hne := h n (Nat.lt_succ_self n)
    have hss : (epsStepSpec fa)^[n] X ⊂ (epsStepSpec fa)^[n + 1] X :=
      Finset.ssubset_iff_subset_ne.mpr ⟨iterate_mono_step fa X n, fun he => hne he.symm⟩
    have := Finset.card_lt_card hss
    omega

/-- `epsilonClosureSpec` is a fixpoint of the spec round: iterating one
more time than `(X ∪ allEpsDests).card` has certainly stabilised, by a
counting argument. -/
theorem epsilonClosureSpec_fix (fa : FiniteAutomaton) (X : Finset String) :
    epsStepSpec fa (epsilonClosureSpec fa X) = epsilonClosureSpec fa X := by
  by_cases hex : ∃ k < (X ∪ allEpsDests fa).card + 1,
      (epsStepSpec fa)^[k + 1] X = (epsStepSpec fa)^[k] X
  · obtain ⟨k, hk, hfix⟩ := hex
    have h1 : (epsStepSpec fa)^[(X ∪ allEpsDests fa).card + 1] X =
        (epsStepSpec fa)^[k] X := iterate_stab fa X hfix _ (Nat.le_of_lt hk)
    have h2 : (epsStepSpec fa)^[(X ∪ allEpsDests fa).card + 1 + 1] X =
        (epsStepSpec fa)^[k] X := iterate_stab fa X hfix _ (by omega)
    unfold epsilonClosureSpec
    rw [← Function.iterate_succ_apply' (epsStepSpec fa)
      ((X ∪ allEpsDests fa).card + 1) X, h2, h1]
  · exfalso
    push_neg at hex
    have hgrow := iterate_card_growth fa X ((X ∪ allEpsDests fa).card + 1)
      (fun k hk => hex k hk)
    have hbound := Finset.card_le_card
      (iterate_subset_union fa X ((X ∪ allEpsDests fa).card + 1))
    omega

/-- The three defining properties of the spec ε-closure: it contains its
input, it is ε-closed, and it is least among the ε-closed supersets of its
input. -/
theorem epsilonClosureSpec_props (fa : FiniteAutomaton) (X : Finset String) :
    X ⊆ epsilonClosureSpec fa X ∧ EpsClosed fa (epsilonClosureSpec fa X) ∧
      ∀ C, X ⊆ C → EpsClosed fa C → epsilonClosureSpec fa X ⊆ C := by
  refine ⟨subset_iterate fa X _, ?_,
    fun C hXC hC => iterate_subset_of_closed fa hXC hC _⟩
  intro s hs d hd
  rw [← epsilonClosureSpec_fix fa X]
  exact Finset.mem_union_right _
    (Finset.mem_biUnion.mpr ⟨s, hs, List.mem_toFinset.mpr hd⟩)

/-- The worklist closure of the source equals the fixpoint closure of the
spec: both are the least ε-closed superset. -/
theorem gec_eq_spec (fa : FiniteAutomaton) (X : Finset String) :
    get_epsilon_closure fa X = epsilonClosureSpec fa X := by
  obtain ⟨h1, h2, h3⟩ := get_epsilon_closure_spec fa X
  obtain ⟨g1, g2, g3⟩ := epsilonClosureSpec_props fa X
  exact Finset.Subset.antisymm (h3 _ g1 g2) (g3 _ h1 h2)

/-- The symbol step of the source equals the symbol move of the spec. -/
theorem stepSymbol_eq_moveSpec (fa : FiniteAutomaton) (current : Finset String)
    (symbol : Char) : stepSymbol fa current symbol = moveSpec fa current symbol := by
  unfold stepSymbol moveSpec
  refine Finset.biUnion_congr rfl ?_
  intro st _
  cases h : lookupTable fa st with
  | none => simp
  | some table =>
    cases h2 : table.lookup symbol with
    | none => simp [h2]
    | some ds => simp [h2]

/-- The symbol loop of the source equals the symbol loop of the spec. -/
theorem simLoop_eq_spec (fa : FiniteAutomaton) :
    ∀ (input : List Char) (current : Finset String),
      simLoop fa current input = simLoopSpec fa current input := by
  intro input
  induction input with
  | nil => intro current; rfl
  | cons symbol rest ih =>
    intro current
    rw [simLoop, simLoopSpec, gec_eq_spec, stepSymbol_eq_moveSpec]
    by_cases h : epsilonClosureSpec fa (moveSpec fa current symbol) = ∅
    · rw [if_pos h, if_pos h]
    · rw [if_neg h, if_neg h, ih]

/-- A valid input string produces no invalid symbols. -/
theorem invalidSymbols_empty (fa : FiniteAutomaton) {input : List Char}
    (h : ∀ c ∈ input, c ∈ fa.alphabet) : invalidSymbols fa input = ∅ := by
  unfold invalidSymbols
  have hnil : input.filter (fun symbol => decide (symbol ∉ fa.alphabet)) = [] := by
    rw [List.filter_eq_nil_iff]
    intro a ha
    simp [h a ha]
  rw [hnil]
  rfl

/-- `initFA` applied to the fields of an automaton, folded by structure
eta. -/
theorem initFA_eta (fa : FiniteAutomaton) :
    initFA fa.states fa.alphabet fa.transitions fa.start_state fa.accept_states =
      (if check_if_dfa fa then
        match validate_transitions fa with
        | [] => Except.ok fa
        | v :: vs => Except.error (v :: vs)
       else Except.ok fa) := rfl

/-- A bad state seen by the scan forces `check_if_dfa` to `false`. -/
theorem check_false_of_scanBad {fa : FiniteAutomaton} {st : String}
    (hst : st ∈ fa.states) (h : scanBad fa st = true) :
    check_if_dfa fa = false := by
  unfold check_if_dfa
  rw [if_pos (List.any_eq_true.mpr ⟨st, hst, h⟩)]

/-- When `check_if_dfa` holds, the scan found nothing bad anywhere. -/
theorem scanBad_false_of_check {fa : FiniteAutomaton}
    (hc : check_if_dfa fa = true) {st : String} (hst : st ∈ fa.states) :
    scanBad fa st = false := by
  unfold check_if_dfa at hc
  by_cases h : fa.states.any (scanBad fa) = true
  · rw [if_pos h] at hc
    exact absurd hc (by simp)
  · rcases Bool.eq_false_or_eq_true (scanBad fa st) with ht | hf
    · exact absurd (List.any_eq_true.mpr ⟨st, hst, ht⟩) h
    · exact hf

/-- When `check_if_dfa` holds, every state passes the completeness test. -/
theorem complete_of_check {fa : FiniteAutomaton}
    (hc : check_if_dfa fa = true) {st : String} (hst : st ∈ fa.states) :
    complete fa st = true := by
  unfold check_if_dfa at hc
  by_cases h : fa.states.any (scanBad fa) = true
  · rw [if_pos h] at hc
    exact absurd hc (by simp)
  · rw [if_neg h] at hc
    exact List.all_eq_true.mp hc st hst

/-- `check_if_dfa` holds when the scan finds nothing and every state is
complete. -/
theorem check_true_of {fa : FiniteAutomaton}
    (hscan : ∀ st ∈ fa.states, scanBad fa st = false)
    (hcomp : ∀ st ∈ fa.states, complete fa st = true) :
    check_if_dfa fa = true := by
  unfold check_if_dfa
  have hany : ¬ (fa.states.any (scanBad fa) = true) := by
    intro contra
    obtain ⟨st, hst, hb⟩ := List.any_eq_true.mp contra
    rw [hscan st hst] at hb
    exact absurd hb (by decide)
  rw [if_neg hany]
  exact List.all_eq_true.mpr hcomp

/-- Unpacking `scanBad fa st = false` at a state with a table. -/
theorem scanBad_false_elim {fa : FiniteAutomaton} {st : String}
    (h : scanBad fa st = false) {table : List (Char × List String)}
    (hl : lookupTable fa st = some table) :
    table.lookup epsSym = none ∧ ∀ e ∈ table, e.2.length ≤ 1 := by
  unfold scanBad at h
  rw [hl] at h
  rcases Bool.or_eq_false_iff.mp h with ⟨h1, h2⟩
  constructor
  · exact Option.not_isSome_iff_eq_none.mp (by simp [h1])
  · intro e he
    have := List.any_eq_false.mp h2 e he
    simpa using this

/-- Building `scanBad fa st = false`. -/
theorem scanBad_false_intro {fa : FiniteAutomaton} {st : String}
    (h : ∀ table, lookupTable fa st = some table →
      table.lookup epsSym = none ∧ ∀ e ∈ table, e.2.length ≤ 1) :
    scanBad fa st = false := by
  unfold scanBad
  cases hl : lookupTable fa st with
  | none => rfl
  | some table =>
    obtain ⟨h1, h2⟩ := h table hl
    show ((List.lookup epsSym table).isSome ||
      table.any fun e => decide (1 < e.2.length)) = false
    rw [h1]
    simp only [Option.isSome_none, Bool.false_or, List.any_eq_false]
    intro e he
    simp only [decide_eq_true_eq]
    exact Nat.not_lt.mpr (h2 e he)

/-- The scan flags a state with an ε entry. -/
theorem scanBad_true_of_eps {fa : FiniteAutomaton} {st : String}
    {table : List (Char × List String)} (hl : lookupTable fa st = some table)
    (h : (table.lookup epsSym).isSome = true) : scanBad fa st = true := by
  unfold scanBad
  rw [hl]
  exact Bool.or_eq_true_iff.mpr (Or.inl h)

/-- The scan flags a state with a multi-destination entry. -/
theorem scanBad_true_of_multi {fa : FiniteAutomaton} {st : String}
    {table : List (Char × List String)} (hl : lookupTable fa st = some table)
    {e : Char × List String} (he : e ∈ table) (h : 1 < e.2.length) :
    scanBad fa st = true := by
  unfold scanBad
  rw [hl]
  exact Bool.or_eq_true_iff.mpr (Or.inr (List.any_eq_true.mpr ⟨e, he, decide_eq_true h⟩))

/-- Unpacking the completeness test at a non-accepting state. -/
theorem complete_elim {fa : FiniteAutomaton} {st : String}
    (h : complete fa st = true) (hacc : st ∉ fa.accept_states) :
    ∃ table, lookupTable fa st = some table ∧
      ∀ a ∈ fa.alphabet, (table.lookup a).isSome = true := by
  unfold complete at h
  rcases Bool.or_eq_true_iff.mp h with h1 | h2
  · exact absurd (of_decide_eq_true h1) hacc
  · cases hl : lookupTable fa st with
    | none => rw [hl] at h2; exact Bool.noConfusion h2
    | some table =>
      rw [hl] at h2
      exact ⟨table, rfl, List.all_eq_true.mp h2⟩

/-- An accept state always passes the completeness test. -/
theorem complete_intro_accept {fa : FiniteAutomaton} {st : String}
    (h : st ∈ fa.accept_states) : complete fa st = true := by
  unfold complete
  exact Bool.or_eq_true_iff.mpr (Or.inl (decide_eq_true h))

/-- A state with a full table passes the completeness test. -/
theorem complete_intro_table {fa : FiniteAutomaton} {st : String}
    {table : List (Char × List String)} (hl : lookupTable fa st = some table)
    (h : ∀ a ∈ fa.alphabet, (table.lookup a).isSome = true) :
    complete fa st = true := by
  unfold complete
  rw [hl]
  exact Bool.or_eq_true_iff.mpr (Or.inr (List.all_eq_true.mpr h))

/-- An ε entry reachable from a listed state makes `has_epsilon` true. -/
theorem has_epsilon_true_of {fa : FiniteAutomaton} {st : String}
    {table : List (Char × List String)} (hst : st ∈ fa.states)
    (hl : lookupTable fa st = some table)
    (h : (table.lookup epsSym).isSome = true) : has_epsilon fa = true := by
  refine List.any_eq_true.mpr ⟨st, hst, ?_⟩
  unfold hasEpsAt
  rw [hl]
  exact h

/-- Without any ε entry reachable from a listed state, `has_epsilon` is
false. -/
theorem has_epsilon_false_of (fa : FiniteAutomaton)
    (h : ¬ ∃ st ∈ fa.states, ∃ table, lookupTable fa st = some table ∧
      (table.lookup epsSym).isSome = true) : has_epsilon fa = false := by
  rcases Bool.eq_false_or_eq_true (has_epsilon fa) with ht | hf
  swap
  · exact hf
  · exfalso
    obtain ⟨st, hst, hba⟩ := List.any_eq_true.mp ht
    unfold hasEpsAt at hba
    cases hl : lookupTable fa st with
    | none => rw [hl] at hba; exact absurd hba (by decide)
    | some table => rw [hl] at hba; exact h ⟨st, hst, table, hl, hba⟩

/-- Membership in the violation list of one state. -/
theorem mem_stateViolations_iff (fa : FiniteAutomaton) (st : String)
    (v : Violation) :
    v ∈ stateViolations fa st ↔
      ((∃ a ∈ fa.alphabet, v = Violation.missing st a ∧
          (lookupTable fa st).bind (fun t => t.lookup a) = none) ∨
       (∃ a ∈ fa.alphabet, ∃ ds, v = Violation.multiple st a ∧
          (lookupTable fa st).bind (fun t => t.lookup a) = some ds ∧
          ds.length ≠ 1)) := by
  unfold stateViolations
  cases hl : lookupTable fa st with
  | none =>
    rw [List.mem_map]
    constructor
    · rintro ⟨a, ha, rfl⟩
      exact Or.inl ⟨a, ha, rfl, rfl⟩
    · rintro (⟨a, ha, rfl, _⟩ | ⟨a, ha, ds, _, hsome, _⟩)
      · exact ⟨a, ha, rfl⟩
      · exact absurd hsome (by simp)
  | some table =>
    rw [List.mem_filterMap]
    constructor
    · rintro ⟨a, ha, hf⟩
      cases h2 : table.lookup a with
      | none =>
        simp only [h2] at hf
        obtain rfl : Violation.missing st a = v := Option.some.inj hf
        exact Or.inl ⟨a, ha, rfl, by simp [h2]⟩
      | some ds =>
        simp only [h2] at hf
        by_cases hlen : ds.length ≠ 1
        · rw [if_pos hlen] at hf
          obtain rfl : Violation.multiple st a = v := Option.some.inj hf
          exact Or.inr ⟨a, ha, ds, rfl, by simp [h2], hlen⟩
        · rw [if_neg hlen] at hf
          exact absurd hf (by simp)
    · rintro (⟨a, ha, rfl, hnone⟩ | ⟨a, ha, ds, rfl, hsome, hlen⟩)
      · refine ⟨a, ha, ?_⟩
        have h2 : table.lookup a = none := by simpa using hnone
        rw [h2]
      · refine ⟨a, ha, ?_⟩
        have h2 : table.lookup a = some ds := by simpa using hsome
        simp only [h2]
        rw [if_pos hlen]

/-- Membership in the full violation list. -/
theorem mem_validate_iff (fa : FiniteAutomaton) (v : Violation) :
    v ∈ validate_transitions fa ↔
      ∃ st ∈ fa.states, st ∉ fa.accept_states ∧ v ∈ stateViolations fa st := by
  unfold validate_transitions
  rw [List.mem_flatMap]
  constructor
  · rintro ⟨st, hst, hv⟩
    rw [List.mem_filter] at hst
    exact ⟨st, hst.1, of_decide_eq_true hst.2, hv⟩
  · rintro ⟨st, hst, hacc, hv⟩
    exact ⟨st, List.mem_filter.mpr ⟨hst, decide_eq_true hacc⟩, hv⟩

/-- C4: with no empty destination list anywhere, `FiniteAutomaton.__init__`
never raises `TransitionError`: when `check_if_dfa` returns true every
(non-accepting state, alphabet symbol) pair already has an entry with
exactly one destination, so `validate_transitions` collects nothing and
construction succeeds. -/
theorem init_never_raises (fa : FiniteAutomaton)
    (h : ∀ p ∈ fa.transitions, ∀ e ∈ p.2, e.2 ≠ ([] : List String)) :
    (check_if_dfa fa = true → ∀ st ∈ fa.states, st ∉ fa.accept_states →
      ∀ a ∈ fa.alphabet, (destsOf fa st a).length = 1) ∧
    (check_if_dfa fa = true → validate_transitions fa = []) ∧
    initFA fa.states fa.alphabet fa.transitions fa.start_state
      fa.accept_states = Except.ok fa := by
  have hone : check_if_dfa fa = true → ∀ st ∈ fa.states, st ∉ fa.accept_states →
      ∀ a ∈ fa.alphabet, (destsOf fa st a).length = 1 := by
    intro hc st hst hacc a ha
    obtain ⟨table, hl, hall⟩ := complete_elim (complete_of_check hc hst) hacc
    have hscan := scanBad_false_elim (scanBad_false_of_check hc hst) hl
    cases h2 : table.lookup a with
    | none =>
      have := hall a ha
      rw [h2] at this
      exact Bool.noConfusion this
    | some ds =>
      have hmem_t : (a, ds) ∈ table := lookup_mem h2
      have hle : ds.length ≤ 1 := hscan.2 (a, ds) hmem_t
      have hne : ds ≠ [] := h (st, table) (lookup_mem hl) (a, ds) hmem_t
      have hpos : 0 < ds.length := List.length_pos.mpr hne
      unfold destsOf
      rw [hl]
      simp only [Option.some_bind, h2, Option.getD_some]
      omega
  have hval : check_if_dfa fa = true → validate_transitions fa = [] := by
    intro hc
    rw [List.eq_nil_iff_forall_not_mem]
    intro v hv
    obtain ⟨st, hst, hacc, hv⟩ := (mem_validate_iff fa v).mp hv
    obtain ⟨table, hl, hall⟩ := complete_elim (complete_of_check hc hst) hacc
    rcases (mem_stateViolations_iff fa st v).mp hv with
      ⟨a, ha, _, hnone⟩ | ⟨a, ha, ds, _, hsome, hlen⟩
    · rw [hl] at hnone
      simp only [Option.some_bind] at hnone
      have := hall a ha
      rw [hnone] at this
      exact Bool.noConfusion this
    · rw [hl] at hsome
      simp only [Option.some_bind] at hsome
      refine hlen ?_
      have := hone hc st hst hacc a ha
      unfold destsOf at this
      rw [hl] at this
      simp only [Option.some_bind, hsome, Option.getD_some] at this
      exact this
  refine ⟨hone, hval, ?_⟩
  rw [initFA_eta]
  by_cases hc : check_if_dfa fa = true
  · rw [if_pos hc, hval hc]
  · rw [if_neg hc]

/-- C9: `validate_transitions` collects exactly the violating
(non-accepting state, alphabet symbol) pairs — both missing entries and
entries whose destination count differs from one — never touches accept
states, and when `is_dfa` is true the constructor raises a single
`TransitionError` listing all of them exactly when at least one violation
exists, and raises nothing otherwise. -/
theorem validate_transitions_spec (fa : FiniteAutomaton) :
    (∀ v ∈ validate_transitions fa,
      violState v ∈ fa.states ∧ violState v ∉ fa.accept_states ∧
        violSym v ∈ fa.alphabet) ∧
    (∀ st ∈ fa.states, st ∉ fa.accept_states → ∀ a ∈ fa.alphabet,
      ((Violation.missing st a ∈ validate_transitions fa ↔
        (lookupTable fa st).bind (fun t => t.lookup a) = none) ∧
       (Violation.multiple st a ∈ validate_transitions fa ↔
        ∃ ds, (lookupTable fa st).bind (fun t => t.lookup a) = some ds ∧
          ds.length ≠ 1))) ∧
    (check_if_dfa fa = true →
      (validate_transitions fa = [] →
        initFA fa.states fa.alphabet fa.transitions fa.start_state
          fa.accept_states = Except.ok fa) ∧
      ∀ v vs, validate_transitions fa = v :: vs →
        initFA fa.states fa.alphabet fa.transitions fa.start_state
          fa.accept_states = Except.error (v :: vs)) := by
  refine ⟨?_, ?_, ?_⟩
  · intro v hv
    obtain ⟨st, hst, hacc, hv⟩ := (mem_validate_iff fa v).mp hv
    rcases (mem_stateViolations_iff fa st v).mp hv with
      ⟨a, ha, rfl, _⟩ | ⟨a, ha, ds, rfl, _, _⟩
    · exact ⟨hst, hacc, ha⟩
    · exact ⟨hst, hacc, ha⟩
  · intro st hst hacc a ha
    constructor
    · constructor
      · intro hmem
        obtain ⟨st', hst', hacc', hv⟩ := (mem_validate_iff fa _).mp hmem
        rcases (mem_stateViolations_iff fa st' _).mp hv with
          ⟨a', _, heq, hnone⟩ | ⟨a', _, ds, heq, _, _⟩
        · obtain ⟨rfl, rfl⟩ : st = st' ∧ a = a' := by
            injection heq with h1 h2
            exact ⟨h1, h2⟩
          exact hnone
        · exact Violation.noConfusion heq
      · intro hnone
        refine (mem_validate_iff fa _).mpr ⟨st, hst, hacc, ?_⟩
        exact (mem_stateViolations_iff fa st _).mpr (Or.inl ⟨a, ha, rfl, hnone⟩)
    · constructor
      · intro hmem
        obtain ⟨st', hst', hacc', hv⟩ := (mem_validate_iff fa _).mp hmem
        rcases (mem_stateViolations_iff fa st' _).mp hv with
          ⟨a', _, heq, _⟩ | ⟨a', _, ds, heq, hsome, hlen⟩
        · exact Violation.noConfusion heq
        · obtain ⟨rfl, rfl⟩ : st = st' ∧ a = a' := by
            injection heq with h1 h2
            exact ⟨h1, h2⟩
          exact ⟨ds, hsome, hlen⟩
      · rintro ⟨ds, hsome, hlen⟩
        refine (mem_validate_iff fa _).mpr ⟨st, hst, hacc, ?_⟩
        exact (mem_stateViolations_iff fa st _).mpr
          (Or.inr ⟨a, ha, ds, rfl, hsome, hlen⟩)
  · intro hc
    constructor
    · intro hnil
      rw [initFA_eta, if_pos hc, hnil]
    · intro v vs hcons
      rw [initFA_eta, if_pos hc, hcons]

/-- Unpacking `has_epsilon fa = true`. -/
theorem has_epsilon_elim {fa : FiniteAutomaton} (h : has_epsilon fa = true) :
    ∃ st ∈ fa.states, ∃ table, lookupTable fa st = some table ∧
      (table.lookup epsSym).isSome = true := by
  obtain ⟨st, hst, hb⟩ := List.any_eq_true.mp h
  unfold hasEpsAt at hb
  cases hl : lookupTable fa st with
  | none => rw [hl] at hb; exact Bool.noConfusion hb
  | some table => rw [hl] at hb; exact ⟨st, hst, table, hl, hb⟩

/-- C2 (amended): an automaton without ε entries, in which no entry of any
state has more than one destination, and in which every non-accepting
state has an entry with exactly one destination for every alphabet symbol,
is classified DFA; an automaton with an ε entry (as `has_epsilon` sees it)
is classified ε-NFA; an automaton with a multi-destination entry on a
listed state and no ε entry is classified NFA; in the two nondeterministic
cases construction never raises `TransitionError`. -/
theorem kind_classification (fa : FiniteAutomaton) :
    ((∀ p ∈ fa.transitions, ∀ e ∈ p.2, e.1 ≠ epsSym) →
     (∀ p ∈ fa.transitions, ∀ e ∈ p.2, e.2.length ≤ 1) →
     (∀ st ∈ fa.states, st ∉ fa.accept_states →
        (lookupTable fa st).isSome = true ∧
          ∀ a ∈ fa.alphabet, (destsOf fa st a).length = 1) →
     kind fa = Kind.DFA) ∧
    (has_epsilon fa = true →
     kind fa = Kind.EPSILON_NFA ∧
       initFA fa.states fa.alphabet fa.transitions fa.start_state
         fa.accept_states = Except.ok fa) ∧
    ((∃ st ∈ fa.states, ∃ table, lookupTable fa st = some table ∧
        ∃ e ∈ table, 1 < e.2.length) →
     has_epsilon fa = false →
     kind fa = Kind.NFA ∧
       initFA fa.states fa.alphabet fa.transitions fa.start_state
         fa.accept_states = Except.ok fa) := by
  refine ⟨?_, ?_, ?_⟩
  · intro hnoeps hnomulti hcompl
    have hcheck : check_if_dfa fa = true := by
      refine check_true_of ?_ ?_
      · intro st hst
        refine scanBad_false_intro ?_
        intro table hl
        have hmem := lookup_mem hl
        constructor
        · exact lookup_eq_none_of_not_mem
            (fun e he => hnoeps (st, table) hmem e he)
        · exact fun e he => hnomulti (st, table) hmem e he
      · intro st hst
        by_cases hacc : st ∈ fa.accept_states
        · exact complete_intro_accept hacc
        · obtain ⟨hsome, hone⟩ := hcompl st hst hacc
          obtain ⟨table, hl⟩ := Option.isSome_iff_exists.mp hsome
          refine complete_intro_table hl ?_
          intro a ha
          have h1 := hone a ha
          unfold destsOf at h1
          rw [hl] at h1
          simp only [Option.some_bind] at h1
          cases h2 : table.lookup a with
          | none =>
            rw [h2] at h1
            simp at h1
          | some ds => rfl
    unfold kind
    rw [if_pos hcheck]
  · intro heps
    obtain ⟨st, hst, table, hl, hiso⟩ := has_epsilon_elim heps
    have hcheck := check_false_of_scanBad hst (scanBad_true_of_eps hl hiso)
    constructor
    · unfold kind
      rw [if_neg (by simp [hcheck]), if_pos heps]
    · rw [initFA_eta, if_neg (by simp [hcheck])]
  · rintro ⟨st, hst, table, hl, e, he, hlen⟩ hepsf
    have hcheck := check_false_of_scanBad hst (scanBad_true_of_multi hl he hlen)
    constructor
    · unfold kind
      rw [if_neg (by simp [hcheck]), if_neg (by simp [hepsf])]
    · rw [initFA_eta, if_neg (by simp [hcheck])]

/-- C1: on every input whose symbols all belong to the alphabet,
`simulate` computes exactly the algorithm stated in the spec: start from
the ε-closure of the singleton start set, per symbol take the ε-closure of
the union of destinations via that exact symbol, return false immediately
when that set becomes empty, and at the end accept exactly when the
current set intersects the accept states — one uniform algorithm whose
definition never consults `is_dfa`. -/
theorem simulate_refines_spec (fa : FiniteAutomaton) (input : List Char)
    (h : ∀ c ∈ input, c ∈ fa.alphabet) :
    simulate fa input = Except.ok (simulateSpec fa input) := by
  have hv : validate_input_string fa input = none := by
    unfold validate_input_string
    rw [if_pos (invalidSymbols_empty fa h)]
  unfold simulate
  rw [hv]
  unfold simulateSpec
  rw [simLoop_eq_spec, gec_eq_spec]

/-- The offending-symbol set collects exactly the input symbols outside
the alphabet. -/
theorem mem_invalidSymbols (fa : FiniteAutomaton) (input : List Char)
    (c : Char) :
    c ∈ invalidSymbols fa input ↔ c ∈ input ∧ c ∉ fa.alphabet := by
  unfold invalidSymbols
  rw [List.mem_toFinset, List.mem_filter]
  simp

/-- C6: `simulate` raises `InputError` exactly when some input symbol lies
outside the alphabet; the error names the full set of offending symbols
(not only the first) together with the allowed alphabet; and it is
produced by the validation that runs before any simulation step, so it
depends only on the alphabet and the input, not on the transitions, start
state or accept states (`simulate` is a pure function, so the automaton
value itself is unchanged and reusable). -/
theorem simulate_input_validation (fa : FiniteAutomaton) (input : List Char) :
    ((∃ c ∈ input, c ∉ fa.alphabet) ↔
      ∃ e, simulate fa input = Except.error e) ∧
    (∀ e, simulate fa input = Except.error e →
      (∀ c, c ∈ e.invalid_symbols ↔ c ∈ input ∧ c ∉ fa.alphabet) ∧
      e.allowed = fa.alphabet ∧
      ∀ fa' : FiniteAutomaton, fa'.alphabet = fa.alphabet →
        simulate fa' input = Except.error e) := by
  by_cases hempty : invalidSymbols fa input = ∅
  · have hv : validate_input_string fa input = none := by
      unfold validate_input_string
      rw [if_pos hempty]
    have hok : simulate fa input =
        Except.ok (simLoop fa (get_epsilon_closure fa {fa.start_state}) input) := by
      unfold simulate
      rw [hv]
    constructor
    · constructor
      · rintro ⟨c, hc, hcn⟩
        have hmem : c ∈ invalidSymbols fa input :=
          (mem_invalidSymbols fa input c).mpr ⟨hc, hcn⟩
        rw [hempty] at hmem
        exact absurd hmem (Finset.not_mem_empty c)
      · rintro ⟨e, he⟩
        rw [hok] at he
        exact Except.noConfusion he
    · intro e he
      rw [hok] at he
      exact Except.noConfusion he
  · have hv : validate_input_string fa input =
        some ⟨invalidSymbols fa input, fa.alphabet⟩ := by
      unfold validate_input_string
      rw [if_neg hempty]
    have herr : simulate fa input =
        Except.error ⟨invalidSymbols fa input, fa.alphabet⟩ := by
      unfold simulate
      rw [hv]
    constructor
    · constructor
      · intro _
        exact ⟨_, herr⟩
      · intro _
        obtain ⟨c, hc⟩ := Finset.nonempty_iff_ne_empty.mpr hempty
        obtain ⟨h1, h2⟩ := (mem_invalidSymbols fa input c).mp hc
        exact ⟨c, h1, h2⟩
    · intro e he
      rw [herr] at he
      have he' : InputErr.mk (invalidSymbols fa input) fa.alphabet = e :=
        Except.error.inj he
      subst he'
      refine ⟨fun c => mem_invalidSymbols fa input c, rfl, ?_⟩
      intro fa' halph
      have hinv' : invalidSymbols fa' input = invalidSymbols fa input := by
        unfold invalidSymbols
        rw [halph]
      have hempty' : ¬ invalidSymbols fa' input = ∅ := by
        rw [hinv']
        exact hempty
      have hv' : validate_input_string fa' input =
          some ⟨invalidSymbols fa input, fa.alphabet⟩ := by
        unfold validate_input_string
        rw [if_neg hempty', hinv', halph]
      unfold simulate
      rw [hv']

/-- C5 (amended): the membership checks for the start state and the accept
states live in the GUI method `validate_basic_inputs`, which runs before
the automaton is constructed and fails on a start state outside `states`
or an accept state outside `states`. -/
theorem membership_checked_in_gui (states : List String) (alphabet : List Char)
    (start_state : String) (accept_states : Finset String)
    (h : start_state ∉ states ∨ ∃ a ∈ accept_states, a ∉ states) :
    ∃ e, validate_basic_inputs states alphabet start_state accept_states =
      Except.error e := by
  unfold validate_basic_inputs
  split_ifs with h1 h2 h3 h4 h5 h6 <;> first | exact ⟨_, rfl⟩ | skip
  refine ⟨BasicInputError.emptyStates, ?_⟩
  rcases h with hstart | ⟨a, ha, hnot⟩
  · exact hstart h4
  · exact h6 (Finset.ne_empty_of_mem (Finset.mem_sdiff.mpr ⟨ha, by simpa using hnot⟩))

/-- More fuel than needed never changes the worklist's result. -/
theorem closureLoopFuel_mono (fa : FiniteAutomaton) :
    ∀ fuel closure stack r, closureLoopFuel fa fuel closure stack = some r →
      ∀ fuel', fuel ≤ fuel' →
        closureLoopFuel fa fuel' closure stack = some r := by
  intro fuel
  induction fuel with
  | zero =>
    intro c s r h
    exact absurd h (by simp [closureLoopFuel])
  | succ fuel ih =>
    intro c s r h fuel' hf
    obtain ⟨f2, rfl⟩ : ∃ f2, fuel' = f2 + 1 := ⟨fuel' - 1, by omega⟩
    cases s with
    | nil =>
      rw [closureLoopFuel] at h ⊢
      exact h
    | cons state rest =>
      rw [closureLoopFuel] at h ⊢
      exact ih _ _ r h f2 (by omega)

/-- C8: the ε-closure of a singleton contains that state, and the
ε-closure operator is idempotent. -/
theorem epsilon_closure_superset_idem (fa : FiniteAutomaton) :
    (∀ s : String, s ∈ get_epsilon_closure fa {s}) ∧
    (∀ X : Finset String, get_epsilon_closure fa (get_epsilon_closure fa X) =
      get_epsilon_closure fa X) :=
  ⟨fun s => (get_epsilon_closure_spec fa {s}).1 (Finset.mem_singleton_self s),
   fun X => gec_idem fa X⟩

/-- C10: the worklist of `get_epsilon_closure` terminates on every
automaton and every input set: with the fuel bound determined by the
finite set of ε-destinations it returns a result instead of exhausting the
fuel, and giving the loop any more fuel cannot change that result — the
fixpoint has been reached. -/
theorem closure_worklist_terminates (fa : FiniteAutomaton) (X : Finset String) :
    (∃ r, closureLoopFuel fa (closureFuel fa X (setToList X)) X
      (setToList X) = some r) ∧
    ∀ fuel, closureFuel fa X (setToList X) ≤ fuel →
      closureLoopFuel fa fuel X (setToList X) =
        closureLoopFuel fa (closureFuel fa X (setToList X)) X (setToList X) := by
  obtain ⟨r, hr⟩ := closureLoopFuel_isSome fa (closureFuel fa X (setToList X))
    X (setToList X) (by unfold closureFuel; omega)
  refine ⟨⟨r, hr⟩, ?_⟩
  intro fuel hfuel
  rw [hr]
  exact closureLoopFuel_mono fa _ _ _ r hr fuel hfuel

/-- Witness for C10 at the ε-NFA scenario with one extra unit of fuel. -/
theorem closure_worklist_terminates_witness :
    closureLoopFuel exampleEpsNFA
        (closureFuel exampleEpsNFA {"q0"} (setToList {"q0"}) + 1) {"q0"}
        (setToList {"q0"}) =
      closureLoopFuel exampleEpsNFA
        (closureFuel exampleEpsNFA {"q0"} (setToList {"q0"})) {"q0"}
        (setToList {"q0"}) :=
  (closure_worklist_terminates exampleEpsNFA {"q0"}).2 _ (Nat.le_succ _)

/-- Witness for C1 at the ε-NFA scenario: the input "a" is over the
alphabet, and both the source and the spec algorithm accept it. -/
theorem simulate_refines_spec_witness :
    simulate exampleEpsNFA ['a'] =
      Except.ok (simulateSpec exampleEpsNFA ['a']) ∧
    simulateSpec exampleEpsNFA ['a'] = true :=
  ⟨simulate_refines_spec exampleEpsNFA ['a'] (by decide), by decide⟩

/-- C2 counterexample: in `exampleMultiAccept` every non-accepting state
has exactly one transition per alphabet symbol and no ε entry exists
anywhere, yet `kind` is not DFA, because `check_if_dfa` also rejects
multi-destination entries on accept states. -/
theorem kind_dfa_claim_cex :
    (∀ st ∈ exampleMultiAccept.states, st ∉ exampleMultiAccept.accept_states →
      (lookupTable exampleMultiAccept st).isSome = true ∧
        ∀ a ∈ exampleMultiAccept.alphabet,
          (destsOf exampleMultiAccept st a).length = 1) ∧
    (∀ p ∈ exampleMultiAccept.transitions, ∀ e ∈ p.2, e.1 ≠ epsSym) ∧
    kind exampleMultiAccept ≠ Kind.DFA := by decide

/-- Witness for C2 (amended) at the three example automata. -/
theorem kind_classification_witness :
    kind exampleDFA = Kind.DFA ∧
    (kind exampleEpsNFA = Kind.EPSILON_NFA ∧
      initFA exampleEpsNFA.states exampleEpsNFA.alphabet
        exampleEpsNFA.transitions exampleEpsNFA.start_state
        exampleEpsNFA.accept_states = Except.ok exampleEpsNFA) ∧
    (kind exampleMultiAccept = Kind.NFA ∧
      initFA exampleMultiAccept.states exampleMultiAccept.alphabet
        exampleMultiAccept.transitions exampleMultiAccept.start_state
        exampleMultiAccept.accept_states = Except.ok exampleMultiAccept) :=
  ⟨(kind_classification exampleDFA).1 (by decide) (by decide) (by decide),
   (kind_classification exampleEpsNFA).2.1 (by decide),
   (kind_classification exampleMultiAccept).2.2
     ⟨"q1", by decide, [('a', ["q0", "q1"])], by decide,
      ('a', ["q0", "q1"]), by decide, by decide⟩ (by decide)⟩

/-- C3 counterexample: construction of the spec's incomplete DFA raises no
`TransitionError`; it succeeds. -/
theorem incomplete_dfa_no_error_cex :
    initFA exampleIncomplete.states exampleIncomplete.alphabet
      exampleIncomplete.transitions exampleIncomplete.start_state
      exampleIncomplete.accept_states = Except.ok exampleIncomplete := by
  decide

/-- C3 (amended): the missing (q0, 1) entry makes `check_if_dfa` false, so
the automaton is classified NFA, construction succeeds, and
`validate_transitions` is never invoked — had it been invoked, it would
have reported exactly the pair (q0, 1) and nothing for the accept state
q1. -/
theorem incomplete_dfa_classified_nfa :
    check_if_dfa exampleIncomplete = false ∧
    kind exampleIncomplete = Kind.NFA ∧
    initFA exampleIncomplete.states exampleIncomplete.alphabet
      exampleIncomplete.transitions exampleIncomplete.start_state
      exampleIncomplete.accept_states = Except.ok exampleIncomplete ∧
    validate_transitions exampleIncomplete = [Violation.missing "q0" '1'] := by
  decide

/-- Witness for C4 at the complete DFA scenario. -/
theorem init_never_raises_witness :
    initFA exampleDFA.states exampleDFA.alphabet exampleDFA.transitions
      exampleDFA.start_state exampleDFA.accept_states = Except.ok exampleDFA :=
  (init_never_raises exampleDFA (by decide)).2.2

/-- C5 counterexample: `FiniteAutomaton.__init__` performs no membership
check — constructing an automaton whose start state is outside `states`
succeeds and yields the automaton. -/
theorem construct_no_membership_check_cex :
    initFA exampleBadStart.states exampleBadStart.alphabet
      exampleBadStart.transitions exampleBadStart.start_state
      exampleBadStart.accept_states = Except.ok exampleBadStart ∧
    exampleBadStart.start_state ∉ exampleBadStart.states := by decide

/-- Witness for C5 (amended): the GUI validation rejects the bad start
state. -/
theorem membership_checked_in_gui_witness :
    ∃ e, validate_basic_inputs ["q0"] ['a'] "x" {"q0"} = Except.error e :=
  membership_checked_in_gui ["q0"] ['a'] "x" {"q0"} (Or.inl (by decide))

/-- Witness for C6 at the DFA scenario with the invalid input "2". -/
theorem simulate_input_validation_witness :
    (∃ e, simulate exampleDFA ['2'] = Except.error e) ∧
    ∀ c, c ∈ InputErr.invalid_symbols ⟨{'2'}, ['0', '1']⟩ ↔
      c ∈ ['2'] ∧ c ∉ exampleDFA.alphabet :=
  ⟨(simulate_input_validation exampleDFA ['2']).1.mp ⟨'2', by decide, by decide⟩,
   ((simulate_input_validation exampleDFA ['2']).2 ⟨{'2'}, ['0', '1']⟩
     (by decide)).1⟩

/-- C7 counterexample: on the spec's DFA scenario, `simulate("1")` is not
true. -/
theorem dfa_scenario_cex :
    simulate exampleDFA ['1'] ≠ Except.ok true := by decide

/-- C7 (amended): the DFA scenario accepts exactly the strings with an odd
number of 0s, so "1", "00" and "" are all rejected. -/
theorem dfa_scenario_results :
    simulate exampleDFA ['1'] = Except.ok false ∧
    simulate exampleDFA ['0', '0'] = Except.ok false ∧
    simulate exampleDFA [] = Except.ok false := by decide

/-- Witness for C9 at the empty-destination automaton, the one shape on
which the DFA validation actually fires. -/
theorem validate_transitions_spec_witness :
    initFA exampleEmptyDest.states exampleEmptyDest.alphabet
      exampleEmptyDest.transitions exampleEmptyDest.start_state
      exampleEmptyDest.accept_states =
        Except.error [Violation.multiple "q0" '0'] :=
  ((validate_transitions_spec exampleEmptyDest).2.2 (by decide)).2
    (Violation.multiple "q0" '0') [] (by decide)

end AutomatonSim
